import Mathlib

/-!
Verification of the capability-tracking interpreter core (`camel`).

The development embeds the code of `src/camel` shallowly:

* The capability algebra (`sources`, `readers`, `Capabilities`) is *modelled
  from the spec* (§3.1-3.3): the `camel.capabilities.sources` /
  `camel.capabilities.readers` modules and the `Capabilities` record are not
  part of the provided sources (only `camel/capabilities/utils.py` is), so
  their data model follows the spec's words.
* Runtime values (`camel/interpreter/value.py`) are embedded twice:
  - as an inductive tree `CaMeLValue` — this is the heap of a run in which no
    object is referenced twice, so the id-based visited guards of the Python
    code never fire and every traversal coincides with plain structural
    recursion;
  - as an explicit object store (`GNode` list) with id-based visited sets and
    fuel, used to study the traversals on heaps with reference cycles.
* The policy engine (`camel/security_policy.py`) and the namespace
  (`camel/interpreter/namespace.py`) are embedded directly.
-/

/-- Modelled from the spec: the enumerated source constants of
`camel.capabilities.sources` (spec §3.1), a module not present in `src/`. -/
inductive SourceEnum where
  | User
  | Assistant
  | CaMeL
  | TrustedToolSource
deriving DecidableEq, Repr

/-- Modelled from the spec: an element of a tool's `inner_sources` set is a
source constant or a tool name (spec §3.1). -/
inductive InnerSource where
  | ofEnum (s : SourceEnum)
  | toolName (n : String)
deriving DecidableEq, Repr

/-- Modelled from the spec: a source is an enumerated constant or a tool
source `Tool(name, inner_sources)` (spec §3.1). -/
inductive Source where
  | ofEnum (s : SourceEnum)
  | Tool (name : String) (inner_sources : List InnerSource)
deriving DecidableEq, Repr

/-- Modelled from the spec: a reader set is `Public()` or a concrete set of
identifiers (spec §3.2). -/
inductive Readers where
  | Public
  | RSet (ids : Finset String)
deriving DecidableEq

/-- Modelled from the spec: the reader meet, `Public ∧ X = X` and
`S1 ∧ S2 = S1 ∩ S2` (spec §3.2); this is the `&` used in `get_all_readers`. -/
def Readers.meet : Readers → Readers → Readers
  | .Public, r => r
  | r, .Public => r
  | .RSet a, .RSet b => .RSet (a ∩ b)

/-- Modelled from the spec: the `Capabilities` record bundles
`(sources_set, readers_set)` (spec §3.3). -/
structure Capabilities where
  sources_set : Finset Source
  readers_set : Readers
deriving DecidableEq

/-- Modelled from the spec: `camel()` — sources `{CaMeL}`, readers `Public`
(spec §3.3). -/
def Capabilities.camel : Capabilities :=
  ⟨{Source.ofEnum SourceEnum.CaMeL}, Readers.Public⟩

/-- Modelled from the spec: `default()` — sources `{}`, readers `Public`
(spec §3.3). -/
def Capabilities.default : Capabilities :=
  ⟨∅, Readers.Public⟩

/-- A raw Python payload, as produced by the `.raw` properties of
`camel/interpreter/value.py` (floats are carried as rationals; only their
equality behaviour is relied upon). -/
inductive PyVal where
  | none
  | bool (b : Bool)
  | int (n : Int)
  | float (q : Rat)
  | str (s : String)
  | list (xs : List PyVal)
  | tuple (xs : List PyVal)
  | set (xs : List PyVal)
  | dict (xs : List (PyVal × PyVal))
  | callable (name : String)

/-- The runtime value model of `camel/interpreter/value.py`, as a tree: each
value carries a payload, its own `Capabilities` metadata and the
`_dependencies` tuple.  A `vStr` payload is a tuple of `vChar` values
(`CaMeLStr` over `_CaMeLChar`). -/
inductive CaMeLValue where
  | vNone (meta : Capabilities) (deps : List CaMeLValue)
  | vBool (b : Bool) (meta : Capabilities) (deps : List CaMeLValue)
  | vInt (n : Int) (meta : Capabilities) (deps : List CaMeLValue)
  | vFloat (q : Rat) (meta : Capabilities) (deps : List CaMeLValue)
  | vChar (c : Char) (meta : Capabilities) (deps : List CaMeLValue)
  | vStr (chars : List CaMeLValue) (meta : Capabilities) (deps : List CaMeLValue)
  | vTuple (elems : List CaMeLValue) (meta : Capabilities) (deps : List CaMeLValue)
  | vList (elems : List CaMeLValue) (meta : Capabilities) (deps : List CaMeLValue)
  | vSet (elems : List CaMeLValue) (meta : Capabilities) (deps : List CaMeLValue)
  | vDict (pairs : List (CaMeLValue × CaMeLValue)) (meta : Capabilities)
      (deps : List CaMeLValue)
  | vCallable (name : String) (meta : Capabilities) (deps : List CaMeLValue)

/-- The `metadata` property of `CaMeLValue`. -/
def CaMeLValue.metaOf : CaMeLValue → Capabilities
  | .vNone m _ | .vBool _ m _ | .vInt _ m _ | .vFloat _ m _ | .vChar _ m _
  | .vStr _ m _ | .vTuple _ m _ | .vList _ m _ | .vSet _ m _ | .vDict _ m _
  | .vCallable _ m _ => m

/-- The `_dependencies` tuple of a value. -/
def CaMeLValue.depsOf : CaMeLValue → List CaMeLValue
  | .vNone _ d | .vBool _ _ d | .vInt _ _ d | .vFloat _ _ d | .vChar _ _ d
  | .vStr _ _ d | .vTuple _ _ d | .vList _ _ d | .vSet _ _ d | .vDict _ _ d
  | .vCallable _ _ d => d

/-! ### `get_dependencies` on the tree heap

`CaMeLValue.get_dependencies` returns `self._dependencies` for scalar
values; `CaMeLIterable.get_dependencies` extends it with the dependencies of
every contained element, and `CaMeLMapping.get_dependencies` with those of
every key and value.  On a heap without shared references the visited-id set
threaded by the Python code never causes an early return, so the traversal
is plain structural recursion. -/

mutual

def get_dependencies : CaMeLValue → List CaMeLValue
  | .vNone _ d => d
  | .vBool _ _ d => d
  | .vInt _ _ d => d
  | .vFloat _ _ d => d
  | .vChar _ _ d => d
  | .vStr cs _ d => d ++ gdList cs
  | .vTuple es _ d => d ++ gdList es
  | .vList es _ d => d ++ gdList es
  | .vSet es _ d => d ++ gdList es
  | .vDict ps _ d => d ++ gdPairs ps
  | .vCallable _ _ d => d

def gdList : List CaMeLValue → List CaMeLValue
  | [] => []
  | v :: vs => get_dependencies v ++ gdList vs

def gdPairs : List (CaMeLValue × CaMeLValue) → List CaMeLValue
  | [] => []
  | (k, v) :: ps => get_dependencies k ++ get_dependencies v ++ gdPairs ps

end

/-! ### Raw payloads -/

/-- The raw string behind a `vStr` or `vChar` (`CaMeLStr.raw` concatenates
its characters; `_CaMeLChar`'s payload is its character). -/
def rawStrOf : CaMeLValue → String
  | .vChar c _ _ => String.mk [c]
  | .vStr cs _ _ =>
    String.mk (cs.foldr (fun c acc =>
      match c with
      | .vChar ch _ _ => ch :: acc
      | _ => acc) [])
  | _ => ""

mutual

/-- The `.raw` property: recursively unwrap a value to its Python payload. -/
def rawOf : CaMeLValue → PyVal
  | .vNone _ _ => .none
  | .vBool b _ _ => .bool b
  | .vInt n _ _ => .int n
  | .vFloat q _ _ => .float q
  | .vChar c _ _ => .str (String.mk [c])
  | .vStr cs _ _ => .str (rawStrOf (.vStr cs Capabilities.camel []))
  | .vTuple es _ _ => .tuple (rawList es)
  | .vList es _ _ => .list (rawList es)
  | .vSet es _ _ => .set (rawList es)
  | .vDict ps _ _ => .dict (rawPairs ps)
  | .vCallable n _ _ => .callable n

def rawList : List CaMeLValue → List PyVal
  | [] => []
  | v :: vs => rawOf v :: rawList vs

def rawPairs : List (CaMeLValue × CaMeLValue) → List (PyVal × PyVal)
  | [] => []
  | (k, v) :: ps => (rawOf k, rawOf v) :: rawPairs ps

end

/-! ### Python `==` on raw payloads

`pyEq` models Python's `==` on the payloads produced by `.raw`: numbers
compare across `bool`/`int`/`float`, sequences elementwise, sets by double
inclusion and dicts by size and key/value membership (dict keys are assumed
distinct, as they are in a Python dict). -/

/-- Python numeric coercion of `bool` for comparisons. -/
def pyBoolToInt (b : Bool) : Int := if b then 1 else 0

mutual

def pyEq (a b : PyVal) : Bool :=
  match a, b with
  | .none, .none => true
  | .bool a, .bool b => a == b
  | .bool a, .int n => pyBoolToInt a == n
  | .int n, .bool a => n == pyBoolToInt a
  | .bool a, .float q => (pyBoolToInt a : Rat) == q
  | .float q, .bool a => q == (pyBoolToInt a : Rat)
  | .int n, .int m => n == m
  | .int n, .float q => (n : Rat) == q
  | .float q, .int n => q == (n : Rat)
  | .float q, .float r => q == r
  | .str a, .str b => a == b
  | .list xs, .list ys => pyEqList xs ys
  | .tuple xs, .tuple ys => pyEqList xs ys
  | .set xs, .set ys => pyIncl xs ys && pyIncl ys xs
  | .dict xs, .dict ys => xs.length == ys.length && pyDictIncl xs ys
  | .callable a, .callable b => a == b
  | _, _ => false
termination_by sizeOf a + sizeOf b

def pyEqList (a b : List PyVal) : Bool :=
  match a, b with
  | [], [] => true
  | x :: xs, y :: ys => pyEq x y && pyEqList xs ys
  | _, _ => false
termination_by sizeOf a + sizeOf b

def pyMemB (a : PyVal) (b : List PyVal) : Bool :=
  match a, b with
  | _, [] => false
  | x, y :: ys => pyEq x y || pyMemB x ys
termination_by sizeOf a + sizeOf b

def pyIncl (a b : List PyVal) : Bool :=
  match a, b with
  | [], _ => true
  | x :: xs, ys => pyMemB x ys && pyIncl xs ys
termination_by sizeOf a + sizeOf b

def pyPairMem (a : PyVal × PyVal) (b : List (PyVal × PyVal)) : Bool :=
  match a, b with
  | _, [] => false
  | (k, v), (k2, v2) :: ys => (pyEq k k2 && pyEq v v2) || pyPairMem (k, v) ys
termination_by sizeOf a + sizeOf b

def pyDictIncl (a b : List (PyVal × PyVal)) : Bool :=
  match a, b with
  | [], _ => true
  | p :: xs, ys => pyPairMem p ys && pyDictIncl xs ys
termination_by sizeOf a + sizeOf b

end

/-! ### The `.eq` method

`CaMeLValue.eq` compares raw payloads; `CaMeLIterable.eq` first checks the
variant and then walks both payloads with `zip` (stopping at the shorter
one); `CaMeLMapping.eq` does the same over the item pairs.  `value_eq`
computes the `raw` of the produced `CaMeLBool`. -/

mutual

def value_eq (a b : CaMeLValue) : Bool :=
  match a, b with
  | .vStr xs _ _, .vStr ys _ _ => zipEqAll xs ys
  | .vStr _ _ _, _ => false
  | .vTuple xs _ _, .vTuple ys _ _ => zipEqAll xs ys
  | .vTuple _ _ _, _ => false
  | .vList xs _ _, .vList ys _ _ => zipEqAll xs ys
  | .vList _ _ _, _ => false
  | .vSet xs _ _, .vSet ys _ _ => zipEqAll xs ys
  | .vSet _ _ _, _ => false
  | .vDict xs _ _, .vDict ys _ _ => zipPairsEq xs ys
  | .vDict _ _ _, _ => false
  | x, y => pyEq (rawOf x) (rawOf y)
termination_by sizeOf a + sizeOf b

def zipEqAll (a b : List CaMeLValue) : Bool :=
  match a, b with
  | x :: xs, y :: ys => value_eq x y && zipEqAll xs ys
  | _, _ => true
termination_by sizeOf a + sizeOf b

def zipPairsEq (a b : List (CaMeLValue × CaMeLValue)) : Bool :=
  match a, b with
  | (k, v) :: xs, (k2, v2) :: ys =>
    value_eq k k2 && value_eq v v2 && zipPairsEq xs ys
  | _, _ => true
termination_by sizeOf a + sizeOf b

end

/-- The result every `.eq` implementation builds: `CaMeLTrue`/`CaMeLFalse`
with metadata `Capabilities.camel()` and dependencies `(self, value)`. -/
def camel_eq_method (a b : CaMeLValue) : CaMeLValue :=
  .vBool (value_eq a b) Capabilities.camel [a, b]

/-! ### Operators (`CaMeLInt`, `CaMeLFloat`, `CaMeLStr`, `CaMeLList`) -/

/-- `ast.unaryop` constructors handled by the `unary` methods. -/
inductive UnaryOp where
  | USub
  | UAdd
  | Invert
deriving DecidableEq, Repr

/-- `CaMeLInt.add`: `NotImplemented` unless both operands are ints. -/
def camelInt_add (a b : CaMeLValue) : Option CaMeLValue :=
  match a, b with
  | .vInt n _ _, .vInt m _ _ =>
    some (.vInt (n + m) Capabilities.camel [a, b])
  | _, _ => none

/-- `CaMeLInt.sub`. -/
def camelInt_sub (a b : CaMeLValue) : Option CaMeLValue :=
  match a, b with
  | .vInt n _ _, .vInt m _ _ =>
    some (.vInt (n - m) Capabilities.camel [a, b])
  | _, _ => none

/-- `CaMeLInt.mult`. -/
def camelInt_mult (a b : CaMeLValue) : Option CaMeLValue :=
  match a, b with
  | .vInt n _ _, .vInt m _ _ =>
    some (.vInt (n * m) Capabilities.camel [a, b])
  | _, _ => none

/-- `CaMeLInt.unary`: note that the result is built as
`CaMeLInt(r, self._metadata, (self, *self._dependencies))` — with the
operand's own metadata, not `Capabilities.camel()`. -/
def camelInt_unary (op : UnaryOp) (a : CaMeLValue) : Option CaMeLValue :=
  match a with
  | .vInt n m d =>
    let r : Int :=
      match op with
      | .USub => -n
      | .UAdd => n
      | .Invert => -(n + 1)
    some (.vInt r m (a :: d))
  | _ => none

/-- `CaMeLFloat.add` (restricted to float operands; the float/int mixed case
behaves the same for metadata and dependencies). -/
def camelFloat_add (a b : CaMeLValue) : Option CaMeLValue :=
  match a, b with
  | .vFloat q _ _, .vFloat r _ _ =>
    some (.vFloat (q + r) Capabilities.camel [a, b])
  | _, _ => none

/-- `CaMeLFloat.unary`: `~` on a float raises `TypeError` (`none` here);
`-`/`+` return `CaMeLFloat(r, Capabilities.camel(), (self,))`. -/
def camelFloat_unary (op : UnaryOp) (a : CaMeLValue) : Option CaMeLValue :=
  match a with
  | .vFloat q _ _ =>
    match op with
    | .USub => some (.vFloat (-q) Capabilities.camel [a])
    | .UAdd => some (.vFloat q Capabilities.camel [a])
    | .Invert => none
  | _ => none

/-- `CaMeLStr.add`: concatenation of the character tuples. -/
def camelStr_add (a b : CaMeLValue) : Option CaMeLValue :=
  match a, b with
  | .vStr xs _ _, .vStr ys _ _ =>
    some (.vStr (xs ++ ys) Capabilities.camel [a, b])
  | _, _ => none

/-- `CaMeLList.add`. -/
def camelList_add (a b : CaMeLValue) : Option CaMeLValue :=
  match a, b with
  | .vList xs _ _, .vList ys _ _ =>
    some (.vList (xs ++ ys) Capabilities.camel [a, b])
  | _, _ => none

/-! ### `new_with_dependencies` and the provenance chain -/

/-- `CaMeLValue.new_with_dependencies`: a copy of the value whose
`_dependencies` is `self._dependencies + dependencies`. -/
def new_with_dependencies (v : CaMeLValue) (ds : List CaMeLValue) : CaMeLValue :=
  match v with
  | .vNone m d => .vNone m (d ++ ds)
  | .vBool b m d => .vBool b m (d ++ ds)
  | .vInt n m d => .vInt n m (d ++ ds)
  | .vFloat q m d => .vFloat q m (d ++ ds)
  | .vChar c m d => .vChar c m (d ++ ds)
  | .vStr cs m d => .vStr cs m (d ++ ds)
  | .vTuple es m d => .vTuple es m (d ++ ds)
  | .vList es m d => .vList es m (d ++ ds)
  | .vSet es m d => .vSet es m (d ++ ds)
  | .vDict ps m d => .vDict ps m (d ++ ds)
  | .vCallable n m d => .vCallable n m (d ++ ds)

mutual

/-- The transitive provenance chain of a value: every value reachable from
it through `_dependencies` links. -/
def dep_closure (v : CaMeLValue) : List CaMeLValue :=
  dcList v.depsOf
termination_by sizeOf v
decreasing_by
  cases v <;> simp [CaMeLValue.depsOf]

def dcList (l : List CaMeLValue) : List CaMeLValue :=
  match l with
  | [] => []
  | d :: ds => d :: (dep_closure d ++ dcList ds)
termination_by sizeOf l

end

/-! ### Size bounds for the dependency traversal -/

mutual

theorem sizeOf_lt_of_mem_gd (v : CaMeLValue) :
    ∀ d ∈ get_dependencies v, sizeOf d < sizeOf v := by
  cases v with
  | vNone m dd =>
    intro x hx
    rw [get_dependencies] at hx
    have := List.sizeOf_lt_of_mem hx
    simp only [CaMeLValue.vNone.sizeOf_spec]
    omega
  | vBool b m dd =>
    intro x hx
    rw [get_dependencies] at hx
    have := List.sizeOf_lt_of_mem hx
    simp only [CaMeLValue.vBool.sizeOf_spec]
    omega
  | vInt n m dd =>
    intro x hx
    rw [get_dependencies] at hx
    have := List.sizeOf_lt_of_mem hx
    simp only [CaMeLValue.vInt.sizeOf_spec]
    omega
  | vFloat q m dd =>
    intro x hx
    rw [get_dependencies] at hx
    have := List.sizeOf_lt_of_mem hx
    simp only [CaMeLValue.vFloat.sizeOf_spec]
    omega
  | vChar c m dd =>
    intro x hx
    rw [get_dependencies] at hx
    have := List.sizeOf_lt_of_mem hx
    simp only [CaMeLValue.vChar.sizeOf_spec]
    omega
  | vCallable n m dd =>
    intro x hx
    rw [get_dependencies] at hx
    have := List.sizeOf_lt_of_mem hx
    simp only [CaMeLValue.vCallable.sizeOf_spec]
    omega
  | vStr cs m dd =>
    intro x hx
    rw [get_dependencies] at hx
    rcases List.mem_append.mp hx with h | h
    · have := List.sizeOf_lt_of_mem h
      simp only [CaMeLValue.vStr.sizeOf_spec]
      omega
    · have := sizeOf_lt_of_mem_gdList cs x h
      simp only [CaMeLValue.vStr.sizeOf_spec]
      omega
  | vTuple es m dd =>
    intro x hx
    rw [get_dependencies] at hx
    rcases List.mem_append.mp hx with h | h
    · have := List.sizeOf_lt_of_mem h
      simp only [CaMeLValue.vTuple.sizeOf_spec]
      omega
    · have := sizeOf_lt_of_mem_gdList es x h
      simp only [CaMeLValue.vTuple.sizeOf_spec]
      omega
  | vList es m dd =>
    intro x hx
    rw [get_dependencies] at hx
    rcases List.mem_append.mp hx with h | h
    · have := List.sizeOf_lt_of_mem h
      simp only [CaMeLValue.vList.sizeOf_spec]
      omega
    · have := sizeOf_lt_of_mem_gdList es x h
      simp only [CaMeLValue.vList.sizeOf_spec]
      omega
  | vSet es m dd =>
    intro x hx
    rw [get_dependencies] at hx
    rcases List.mem_append.mp hx with h | h
    · have := List.sizeOf_lt_of_mem h
      simp only [CaMeLValue.vSet.sizeOf_spec]
      omega
    · have := sizeOf_lt_of_mem_gdList es x h
      simp only [CaMeLValue.vSet.sizeOf_spec]
      omega
  | vDict ps m dd =>
    intro x hx
    rw [get_dependencies] at hx
    rcases List.mem_append.mp hx with h | h
    · have := List.sizeOf_lt_of_mem h
      simp only [CaMeLValue.vDict.sizeOf_spec]
      omega
    · have := sizeOf_lt_of_mem_gdPairs ps x h
      simp only [CaMeLValue.vDict.sizeOf_spec]
      omega
termination_by sizeOf v

theorem sizeOf_lt_of_mem_gdList (l : List CaMeLValue) :
    ∀ d ∈ gdList l, sizeOf d < sizeOf l := by
  cases l with
  | nil => intro x hx; rw [gdList] at hx; cases hx
  | cons v vs =>
    intro x hx
    rw [gdList] at hx
    rcases List.mem_append.mp hx with h | h
    · have h1 := sizeOf_lt_of_mem_gd v x h
      simp only [List.cons.sizeOf_spec]
      omega
    · have h1 := sizeOf_lt_of_mem_gdList vs x h
      simp only [List.cons.sizeOf_spec]
      omega
termination_by sizeOf l

theorem sizeOf_lt_of_mem_gdPairs (l : List (CaMeLValue × CaMeLValue)) :
    ∀ d ∈ gdPairs l, sizeOf d < sizeOf l := by
  cases l with
  | nil => intro x hx; rw [gdPairs] at hx; cases hx
  | cons p ps =>
    intro x hx
    obtain ⟨k, v⟩ := p
    rw [gdPairs] at hx
    rcases List.mem_append.mp hx with h | h
    · rcases List.mem_append.mp h with h2 | h2
      · have h1 := sizeOf_lt_of_mem_gd k x h2
        simp only [List.cons.sizeOf_spec, Prod.mk.sizeOf_spec]
        omega
      · have h1 := sizeOf_lt_of_mem_gd v x h2
        simp only [List.cons.sizeOf_spec, Prod.mk.sizeOf_spec]
        omega
    · have h1 := sizeOf_lt_of_mem_gdPairs ps x h
      simp only [List.cons.sizeOf_spec]
      omega
termination_by sizeOf l

end

/-! ### The capability traversals of `camel/capabilities/utils.py`

On the tree heap no object id repeats, so the `visited_objects` guard of
`get_all_readers` / `get_all_sources` never triggers and the traversals are
the folds below. -/

/-- `get_all_readers`: the meet of the value's own reader set with the
all-readers of every dependency in `value.get_dependencies()[0]`. -/
def all_readers (v : CaMeLValue) : Readers :=
  (get_dependencies v).attach.foldl
    (fun r d => r.meet (all_readers d.1)) v.metaOf.readers_set
termination_by sizeOf v
decreasing_by
  exact sizeOf_lt_of_mem_gd v d.1 d.2

/-- `get_all_sources`: the union of the value's own source set with the
all-sources of every dependency. -/
def all_sources (v : CaMeLValue) : Finset Source :=
  (get_dependencies v).attach.foldl
    (fun s d => s ∪ all_sources d.1) v.metaOf.sources_set
termination_by sizeOf v
decreasing_by
  exact sizeOf_lt_of_mem_gd v d.1 d.2

/-- `is_public`: the all-readers of the value is `Public`. -/
def is_public (v : CaMeLValue) : Bool :=
  decide (all_readers v = Readers.Public)

/-- `can_readers_read_value(potential_readers, value)`. -/
def can_readers_read_value (potential_readers : Finset String)
    (v : CaMeLValue) : Bool :=
  match all_readers v with
  | Readers.Public => true
  | Readers.RSet value_readers => decide (potential_readers ⊆ value_readers)

/-- `_TRUSTED_SET` of `camel/capabilities/utils.py`. -/
def TRUSTED_SET : Finset SourceEnum :=
  {SourceEnum.User, SourceEnum.CaMeL, SourceEnum.Assistant,
   SourceEnum.TrustedToolSource}

/-- Python's `s in _TRUSTED_SET` for a source value: a `Tool` is never a
member of the enum set. -/
def source_in_trusted_set : Source → Bool
  | .ofEnum e => decide (e ∈ TRUSTED_SET)
  | .Tool _ _ => false

/-- Membership of an `inner_sources` element in `_TRUSTED_SET`. -/
def inner_source_in_trusted_set : InnerSource → Bool
  | .ofEnum e => decide (e ∈ TRUSTED_SET)
  | .toolName _ => false

/-- `_source_is_trusted`. -/
def source_is_trusted (s : Source) : Bool :=
  if source_in_trusted_set s then true
  else
    match s with
    | .Tool _ inner =>
      !(inner.length == 0) && inner.all inner_source_in_trusted_set
    | _ => false

/-- `is_trusted`: every source in `get_all_sources(value)[0]` is trusted.
(The `trusted_set` parameter of the Python function is accepted but never
used by its body, which always consults `_TRUSTED_SET`.) -/
def is_trusted (v : CaMeLValue) : Bool :=
  decide (∀ s ∈ all_sources v, source_is_trusted s = true)

/-! ### Containment -/

/-- `CaMeLIterable.contains` (`CaMeLList` / `CaMeLTuple` / `CaMeLSet`):
search the elements with `.eq`; a hit yields `CaMeLTrue` with dependencies
`(self, other, inner_element)`, a miss yields `CaMeLFalse` with dependencies
`(*self.get_dependencies()[0], other)`. -/
def iterable_contains (c other : CaMeLValue) : Option CaMeLValue :=
  match c with
  | .vList es _ _ | .vTuple es _ _ | .vSet es _ _ =>
    some (match es.find? (fun el => value_eq el other) with
      | some inner_element =>
        .vBool true Capabilities.camel [c, other, inner_element]
      | none =>
        .vBool false Capabilities.camel (get_dependencies c ++ [other]))
  | _ => none

/-- List-level substring test (`other.raw in self.raw` on Python strings). -/
def listInfixB (needle hay : List Char) : Bool :=
  match hay with
  | [] => needle.isEmpty
  | _ :: rest => needle.isPrefixOf hay || listInfixB needle rest

/-- `CaMeLStr.contains`: `other` must be a string or char (else `TypeError`,
here `none`); a hit yields `CaMeLTrue` with dependencies
`(self, *other.get_dependencies()[0])`, a miss `CaMeLFalse` with
dependencies `(*self.get_dependencies()[0], other)`. -/
def camelStr_contains (c other : CaMeLValue) : Option CaMeLValue :=
  match c with
  | .vStr _ _ _ =>
    match other with
    | .vStr _ _ _ | .vChar _ _ _ =>
      if listInfixB (rawStrOf other).toList (rawStrOf c).toList then
        some (.vBool true Capabilities.camel (c :: get_dependencies other))
      else
        some (.vBool false Capabilities.camel (get_dependencies c ++ [other]))
    | _ => none
  | _ => none

/-! ### `value_from_raw` and the tool-call boundary -/

mutual

/-- `value_from_raw`: wrap a raw payload.  Container elements are wrapped
with `Capabilities.camel()` and empty dependencies; dict values inherit the
outer metadata (`value.py`, lines 1361-1391).  The class-instance cases need
a namespace and are outside this embedding. -/
def value_from_raw (raw_value : PyVal) (metadata : Capabilities)
    (dependencies : List CaMeLValue) : CaMeLValue :=
  match raw_value with
  | .bool b => .vBool b metadata dependencies
  | .int n => .vInt n metadata dependencies
  | .str s =>
    .vStr (s.toList.map (fun c => .vChar c metadata dependencies))
      metadata dependencies
  | .float q => .vFloat q metadata dependencies
  | .none => .vNone metadata dependencies
  | .list xs => .vList (vfrList xs) metadata dependencies
  | .dict ps => .vDict (vfrPairs metadata ps) metadata dependencies
  | .set xs => .vSet (vfrList xs) metadata dependencies
  | .tuple xs => .vTuple (vfrList xs) metadata dependencies
  | .callable n => .vCallable n metadata dependencies
termination_by sizeOf raw_value

def vfrList (l : List PyVal) : List CaMeLValue :=
  match l with
  | [] => []
  | x :: xs => value_from_raw x Capabilities.camel [] :: vfrList xs
termination_by sizeOf l

def vfrPairs (metadata : Capabilities) (l : List (PyVal × PyVal)) :
    List (CaMeLValue × CaMeLValue) :=
  match l with
  | [] => []
  | (k, v) :: ps =>
    (value_from_raw k Capabilities.camel [],
     value_from_raw v metadata []) :: vfrPairs metadata ps
termination_by sizeOf l

end

/-- `CaMeLCallable.wrap_output`: wrap the raw output with metadata
`Capabilities({Tool(self.name().raw)}, Public())` and dependencies
`(self, args, kwargs)`. -/
def wrap_output (selfv : CaMeLValue) (name : String) (output : PyVal)
    (args kwargs : CaMeLValue) : CaMeLValue :=
  value_from_raw output
    ⟨{Source.Tool name []}, Readers.Public⟩
    [selfv, args, kwargs]

/-- What the underlying Python callable did: the state of the raw
positional/keyword arguments it aliased when it returned, plus its output.
A pure callable returns its argument views unchanged. -/
structure PyCallOutcome where
  args_after : List PyVal
  kwargs_after : List (String × PyVal)
  output : PyVal

/-- `kwargs.raw` of the kwargs dict: keys are unwrapped to raw strings. -/
def rawKwargs : List (CaMeLValue × CaMeLValue) → List (String × PyVal)
  | [] => []
  | (k, v) :: ps => (rawStrOf k, rawOf v) :: rawKwargs ps

/-- Python `==` on the kwargs dicts seen before and after the call. -/
def kwargsPyEq (a b : List (String × PyVal)) : Bool :=
  pyEq (.dict (a.map (fun p => (PyVal.str p.1, p.2))))
    (.dict (b.map (fun p => (PyVal.str p.1, p.2))))

/-- `make_args_by_keyword_preserve_values` followed by `.raw` unwrapping
(`_make_args_by_keyword`): positional arguments keyed by their index, then
the keyword arguments. -/
def make_args_by_keyword (es : List CaMeLValue)
    (ps : List (CaMeLValue × CaMeLValue)) : List (String × PyVal) :=
  (es.enum.map (fun p => (toString p.1, rawOf p.2))) ++ rawKwargs ps

/-- `CaMeLCallable.call`.  `raw_args`/`raw_kwargs` are captured before the
underlying callable runs; the callable receives (aliases of) those raw
structures and may mutate them, which is modelled by `f` returning the
post-call state of both views.  Recomputing `args.raw` / `kwargs.raw` after
the call rebuilds fresh structures from the unmutated wrappers, so the
Python comparison `args.raw != raw_args or kwargs.raw != raw_kwargs` is the
comparison of the before and after states.  A detected mutation raises
`FunctionCallWithSideEffectError` (`Except.error`); otherwise the wrapped
output and `args_by_keyword` are returned. -/
def camel_callable_call (selfv : CaMeLValue) (name : String)
    (f : List PyVal → List (String × PyVal) → PyCallOutcome)
    (args kwargs : CaMeLValue) :
    Option (Except String (CaMeLValue × List (String × PyVal))) :=
  match args, kwargs with
  | .vTuple es am ad, .vDict ps km kd =>
    let raw_args := rawList es
    let raw_kwargs := rawKwargs ps
    let outcome := f raw_args raw_kwargs
    some
      (if !(pyEqList raw_args outcome.args_after)
          || !(kwargsPyEq raw_kwargs outcome.kwargs_after) then
        Except.error
          "Call to a function or method with side-effects detected. Use functions and methods that have no side-effects. For example, instead of list.append, use list comprehensions or the [*l, new_element] syntax."
      else
        Except.ok
          (wrap_output selfv name outcome.output
            (.vTuple es am ad) (.vDict ps km kd),
           make_args_by_keyword es ps))
  | _, _ => none

/-! ### Namespace (`camel/interpreter/namespace.py`) -/

/-- Python's `dict.__or__` (`self.variables | variables`): keys of the left
dict first with values updated from the right, then the new keys of the
right dict. -/
def pyDictUnion (a b : List (String × CaMeLValue)) :
    List (String × CaMeLValue) :=
  (a.map (fun p => (p.1, ((b.lookup p.1).getD p.2)))) ++
    b.filter (fun p => (a.lookup p.1).isNone)

/-- The frozen dataclass `Namespace` (its `variables` dict is `varsOf`
here; `variables` is a reserved word in Lean). -/
structure Namespace where
  varsOf : List (String × CaMeLValue)

/-- `Namespace.add_variables`: `dataclasses.replace(self,
variables=self.variables | variables)` — a fresh namespace built from the
merged dict; the receiver is not modified (modelled here by the function
being pure). -/
def Namespace.add_variables (n : Namespace)
    (vars : List (String × CaMeLValue)) : Namespace :=
  ⟨pyDictUnion n.varsOf vars⟩

/-- `Namespace.get`: `self.variables.get(name)`. -/
def Namespace.get (n : Namespace) (name : String) : Option CaMeLValue :=
  n.varsOf.lookup name

/-! ### The security-policy engine (`camel/security_policy.py`) -/

inductive SecurityPolicyResult where
  | Allowed
  | Denied (reason : String)

/-- A security policy: pure over `(tool_name, kwargs)`. -/
def SecurityPolicy : Type :=
  String → List (String × CaMeLValue) → SecurityPolicyResult

/-- One glob-pattern token (`fnmatch.translate` alphabet). -/
inductive GlobTok where
  | star
  | anyChar
  | lit (c : Char)
  | cls (negated : Bool) (items : List (Char × Char))
deriving Repr

/-- Does a character fall in a `[...]` class?  Single characters are stored
as the degenerate range `(c, c)`. -/
def classHit (items : List (Char × Char)) (c : Char) : Bool :=
  items.any (fun p => decide (p.1.toNat ≤ c.toNat ∧ c.toNat ≤ p.2.toNat))

/-- Scan the body of a `[...]` class (after any `!` and leading `]`):
`a-b` ranges, single characters, closing `]`.  `none` when the class is
never closed (then `fnmatch` treats `[` as a literal). -/
def scanClassBody : Nat → List Char → Option (List (Char × Char) × List Char)
  | 0, _ => none
  | _ + 1, [] => none
  | _ + 1, ']' :: rest => some ([], rest)
  | fuel + 1, a :: '-' :: b :: rest =>
    if b = ']' then some ([(a, a), ('-', '-')], rest)
    else
      match scanClassBody fuel rest with
      | some (items, rest2) => some ((a, b) :: items, rest2)
      | none => none
  | fuel + 1, a :: rest =>
    match scanClassBody fuel rest with
    | some (items, rest2) => some ((a, a) :: items, rest2)
    | none => none

/-- Tokenize a glob pattern (`*`, `?`, `[...]`, `[!...]`, literals), after
Python's `fnmatch.translate`. -/
def tokenizeGlob : Nat → List Char → List GlobTok
  | 0, _ => []
  | _ + 1, [] => []
  | fuel + 1, '*' :: rest => .star :: tokenizeGlob fuel rest
  | fuel + 1, '?' :: rest => .anyChar :: tokenizeGlob fuel rest
  | fuel + 1, '[' :: rest =>
    let negRest : Bool × List Char :=
      match rest with
      | '!' :: r => (true, r)
      | _ => (false, rest)
    let leadRest : List (Char × Char) × List Char :=
      match negRest.2 with
      | ']' :: r => ([(']', ']')], r)
      | _ => ([], negRest.2)
    match scanClassBody (fuel + 1) leadRest.2 with
    | some (items, rest2) =>
      .cls negRest.1 (leadRest.1 ++ items) :: tokenizeGlob fuel rest2
    | none => .lit '[' :: tokenizeGlob fuel rest
  | fuel + 1, c :: rest => .lit c :: tokenizeGlob fuel rest

/-- Match a token list against a name. -/
def tokMatch : List GlobTok → List Char → Bool
  | [], s => s.isEmpty
  | .star :: ts, s => (List.range (s.length + 1)).any (fun i => tokMatch ts (s.drop i))
  | .anyChar :: ts, s =>
    match s with
    | [] => false
    | _ :: s2 => tokMatch ts s2
  | .lit c :: ts, s =>
    match s with
    | [] => false
    | c2 :: s2 => c == c2 && tokMatch ts s2
  | .cls negated items :: ts, s =>
    match s with
    | [] => false
    | c :: s2 => (classHit items c != negated) && tokMatch ts s2

/-- `fnmatch.fnmatch(name, pat)` (POSIX case rules, where `normcase` is the
identity). -/
def fnmatch (name pat : String) : Bool :=
  tokMatch (tokenizeGlob (pat.length + 1) pat.toList) name.toList

/-- A `SecurityPolicyEngine`: an ordered rule list and the set of
no-side-effect tools. -/
structure SecurityPolicyEngine where
  policies : List (String × SecurityPolicy)
  no_side_effect_tools : List String

/-- `SecurityPolicyEngine.check_policy`.  (The Python denial message
interpolates the raw non-public values; the text is abbreviated here, the
claims only distinguish `Allowed` from `Denied`.) -/
def check_policy (engine : SecurityPolicyEngine) (tool_name : String)
    (kwargs : List (String × CaMeLValue)) (dependencies : List CaMeLValue) :
    SecurityPolicyResult :=
  if tool_name ∈ engine.no_side_effect_tools then .Allowed
  else
    let non_public_variables := dependencies.filter (fun d => !(is_public d))
    if 0 < non_public_variables.length then
      .Denied (tool_name ++ " is state-changing and depends on private values.")
    else
      match engine.policies.find? (fun p => fnmatch tool_name p.1) with
      | some p => p.2 tool_name kwargs
      | none => .Denied "No security policy matched for tool. Defaulting to denial."

/-! ### The object store embedding

Heaps built through interior mutation (`CaMeLMutableSequence.set_index`) can
contain reference cycles; the id-based visited sets then matter.  A store is
a list of nodes indexed by object id.  `gdF` is `get_dependencies` over such
a store, with fuel counting nested calls; `none` means the fuel was
exhausted.  It is a line-by-line translation:

* a scalar value (`CaMeLValue.get_dependencies`, `value.py` line 71) returns
  `(self._dependencies, frozenset({id(self)}))` — the *incoming* visited set
  is discarded;
* an iterable (`CaMeLIterable.get_dependencies`, line 262) returns early on
  a revisit, otherwise folds over its elements, passing
  `visited_objects | {id(self)}` to each element and rebinding
  `visited_objects` to each result. -/

inductive GKind where
  | atomic
  | iterable (elems : List Nat)

structure GNode where
  deps : List Nat
  kind : GKind

/-- `visited_objects | {id(self)}` on a duplicate-free id list. -/
def insertId (i : Nat) (vis : List Nat) : List Nat :=
  if i ∈ vis then vis else vis ++ [i]

def gdF (st : List GNode) : Nat → Nat → List Nat →
    Option (List Nat × List Nat)
  | 0, _, _ => none
  | fuel + 1, vid, visited =>
    match st.get? vid with
    | none => none
    | some node =>
      match node.kind with
      | .atomic => some (node.deps, [vid])
      | .iterable elems =>
        if vid ∈ visited then some (node.deps, visited)
        else
          match elems.foldl
            (fun acc e =>
              match acc with
              | none => none
              | some (ds, vis) =>
                match gdF st fuel e (insertId vid vis) with
                | none => none
                | some (nd, vis2) => some (ds ++ nd, vis2))
            (some (node.deps, visited)) with
          | none => none
          | some (ds, vis) => some (ds, insertId vid vis)
termination_by fuel => fuel

/-! ## Helper lemmas about association-list lookup -/

theorem lookup_append_str {β : Type} (k : String) (l1 l2 : List (String × β)) :
    (l1 ++ l2).lookup k = ((l1.lookup k).orElse (fun _ => l2.lookup k)) := by
  induction l1 with
  | nil => simp [List.lookup]
  | cons p l1 ih =>
    obtain ⟨k0, v0⟩ := p
    by_cases h : k = k0
    · subst h
      simp [List.lookup]
    · have hbeq : (k == k0) = false := by
        simp [h]
      simp only [List.cons_append, List.lookup, hbeq]
      exact ih

theorem lookup_map_getD (k : String) (a : List (String × CaMeLValue))
    (b : List (String × CaMeLValue)) :
    (a.map (fun p => (p.1, ((b.lookup p.1).getD p.2)))).lookup k
      = (a.lookup k).map (fun v => (b.lookup k).getD v) := by
  induction a with
  | nil => simp [List.lookup]
  | cons p a ih =>
    obtain ⟨k0, v0⟩ := p
    by_cases h : k = k0
    · subst h
      simp [List.lookup]
    · have hbeq : (k == k0) = false := by
        simp [h]
      simp only [List.map_cons, List.lookup, hbeq]
      exact ih

theorem lookup_filter_key (k : String) (b : List (String × CaMeLValue))
    (pred : String → Bool) :
    (b.filter (fun p => pred p.1)).lookup k
      = if pred k then b.lookup k else none := by
  induction b with
  | nil => simp [List.lookup]
  | cons p b ih =>
    obtain ⟨k0, v0⟩ := p
    by_cases h : k = k0
    · subst h
      by_cases hp : pred k
      · simp [List.filter, hp, List.lookup]
      · simp only [List.filter_cons]
        rw [if_neg (by simp [hp])]
        rw [ih]
        simp [hp]
    · have hbeq : (k == k0) = false := by
        simp [h]
      by_cases hp : pred k0
      · simp only [List.filter_cons]
        rw [if_pos (by simp [hp])]
        simp only [List.lookup, hbeq]
        rw [ih]
      · simp only [List.filter_cons]
        rw [if_neg (by simp [hp])]
        rw [ih]
        by_cases hk : pred k
        · simp [hk, List.lookup, hbeq]
        · simp [hk]

theorem lookup_pyDictUnion (a b : List (String × CaMeLValue)) (k : String) :
    (pyDictUnion a b).lookup k = ((b.lookup k).orElse (fun _ => a.lookup k)) := by
  unfold pyDictUnion
  rw [lookup_append_str, lookup_map_getD,
    lookup_filter_key k b (fun s => (a.lookup s).isNone)]
  cases ha : a.lookup k with
  | none =>
    cases hb : b.lookup k with
    | none => simp [ha, hb]
    | some w => simp [ha, hb]
  | some v =>
    cases hb : b.lookup k with
    | none => simp [ha, hb]
    | some w => simp [ha, hb]

/-! ## Claim C10 -/

/-- C10: `n.add_variables(m)` returns a new namespace whose `get` behaves as
`n`'s bindings updated with `m` — `m` wins on name clashes (`get k` is `m`'s
binding whenever `k` is bound in `m`, and `n`'s binding otherwise).  The
original namespace is untouched: `add_variables` is `dataclasses.replace`
over the merged dict `self.variables | variables`, a pure construction of a
fresh `Namespace`, modelled here as a pure function. -/
theorem add_variables_get (n : Namespace) (m : List (String × CaMeLValue))
    (k : String) :
    (n.add_variables m).get k = ((m.lookup k).orElse (fun _ => n.get k)) := by
  unfold Namespace.add_variables Namespace.get
  exact lookup_pyDictUnion n.varsOf m k

/-! ## Claim C3 -/

/-- C3: `can_readers_read_value(R, v)` returns `True` exactly when
`all_readers(v)` is `Public` or `R` is a subset of the concrete all-readers
set; in particular a `True` result implies `R ⊆ all_readers(v)` or
`all_readers(v) = Public`. -/
theorem can_readers_read_value_iff (potential_readers : Finset String)
    (v : CaMeLValue) :
    can_readers_read_value potential_readers v = true ↔
      (all_readers v = Readers.Public ∨
        ∃ ids, all_readers v = Readers.RSet ids ∧ potential_readers ⊆ ids) := by
  unfold can_readers_read_value
  cases h : all_readers v with
  | Public => simp
  | RSet ids =>
    simp only [decide_eq_true_eq]
    constructor
    · intro hsub
      exact Or.inr ⟨ids, rfl, hsub⟩
    · intro hor
      rcases hor with h1 | ⟨ids2, h2, hsub⟩
      · cases h1
      · cases h2
        exact hsub

/-! ## Claim C4 -/

/-- The claim's characterization of a trusted source: one of the enumerated
constants `User`, `Assistant`, `CaMeL`, `TrustedToolSource`, or a `Tool`
whose `inner_sources` is non-empty and entirely trusted. -/
def source_trusted_spec (s : Source) : Prop :=
  s = Source.ofEnum SourceEnum.User ∨
  s = Source.ofEnum SourceEnum.Assistant ∨
  s = Source.ofEnum SourceEnum.CaMeL ∨
  s = Source.ofEnum SourceEnum.TrustedToolSource ∨
  ∃ n inner, s = Source.Tool n inner ∧ inner ≠ [] ∧
    ∀ i ∈ inner, ∃ e, i = InnerSource.ofEnum e ∧ e ∈ TRUSTED_SET

theorem source_is_trusted_iff (s : Source) :
    source_is_trusted s = true ↔ source_trusted_spec s := by
  cases s with
  | ofEnum e =>
    cases e <;> simp [source_is_trusted, source_in_trusted_set, TRUSTED_SET,
      source_trusted_spec]
  | Tool n inner =>
    simp only [source_is_trusted, source_in_trusted_set, if_false,
      Bool.and_eq_true, Bool.not_eq_true', beq_eq_false_iff_ne, ne_eq,
      List.all_eq_true, source_trusted_spec, Bool.false_eq_true]
    constructor
    · rintro ⟨hlen, hall⟩
      refine Or.inr (Or.inr (Or.inr (Or.inr ⟨n, inner, rfl, ?_, ?_⟩)))
      · intro hnil
        exact hlen (by simp [hnil])
      · intro i hi
        have := hall i hi
        cases i with
        | ofEnum e =>
          refine ⟨e, rfl, ?_⟩
          simpa [inner_source_in_trusted_set] using this
        | toolName t =>
          simp [inner_source_in_trusted_set] at this
    · rintro (h | h | h | h | ⟨n2, inner2, heq, hne, hall⟩)
      · cases h
      · cases h
      · cases h
      · cases h
      · cases heq
        refine ⟨?_, ?_⟩
        · intro hlen
          exact hne (List.length_eq_zero.mp hlen)
        · intro i hi
          obtain ⟨e, rfl, he⟩ := hall i hi
          simpa [inner_source_in_trusted_set] using he

/-- C4: `is_trusted(v)` returns `True` exactly when every source in the
union of sources over `v` and its transitive dependencies — the set computed
by `get_all_sources` — satisfies the claim's trust characterization. -/
theorem is_trusted_iff (v : CaMeLValue) :
    is_trusted v = true ↔ ∀ s ∈ all_sources v, source_trusted_spec s := by
  unfold is_trusted
  simp only [decide_eq_true_eq]
  constructor
  · intro h s hs
    exact (source_is_trusted_iff s).mp (h s hs)
  · intro h s hs
    exact (source_is_trusted_iff s).mpr (h s hs)

/-! ## Claim C1 -/

/-- C1: `check_policy` returns `Allowed` for tools in the engine's
no-side-effect set; otherwise it returns `Denied` whenever some dependency
is not public; otherwise the rule list is walked in order and the first
policy whose glob pattern matches the tool name decides the result; with no
matching pattern the result is `Denied` (default deny). -/
theorem check_policy_contract (engine : SecurityPolicyEngine)
    (tool_name : String) (kwargs : List (String × CaMeLValue))
    (dependencies : List CaMeLValue) :
    (tool_name ∈ engine.no_side_effect_tools →
      check_policy engine tool_name kwargs dependencies = .Allowed)
    ∧ (tool_name ∉ engine.no_side_effect_tools →
      (∃ d ∈ dependencies, is_public d = false) →
      ∃ r, check_policy engine tool_name kwargs dependencies = .Denied r)
    ∧ (∀ pat policy, tool_name ∉ engine.no_side_effect_tools →
      (∀ d ∈ dependencies, is_public d = true) →
      engine.policies.find? (fun p => fnmatch tool_name p.1)
        = some (pat, policy) →
      check_policy engine tool_name kwargs dependencies
        = policy tool_name kwargs)
    ∧ (tool_name ∉ engine.no_side_effect_tools →
      (∀ d ∈ dependencies, is_public d = true) →
      engine.policies.find? (fun p => fnmatch tool_name p.1) = none →
      ∃ r, check_policy engine tool_name kwargs dependencies = .Denied r) := by
  refine ⟨?_, ?_, ?_, ?_⟩
  · intro hmem
    unfold check_policy
    rw [if_pos hmem]
  · intro hmem hpriv
    unfold check_policy
    rw [if_neg hmem]
    obtain ⟨d, hd, hdp⟩ := hpriv
    have hne : dependencies.filter (fun d => !(is_public d)) ≠ [] := by
      intro hnil
      have := List.filter_eq_nil.mp hnil d hd
      simp [hdp] at this
    have hpos : 0 < (dependencies.filter (fun d => !(is_public d))).length :=
      List.length_pos.mpr hne
    simp only [hpos, if_true]
    exact ⟨_, rfl⟩
  · intro pat policy hmem hpub hfind
    unfold check_policy
    rw [if_neg hmem]
    have hnil : dependencies.filter (fun d => !(is_public d)) = [] := by
      apply List.filter_eq_nil.mpr
      intro d hd
      simp [hpub d hd]
    simp only [hnil, List.length_nil, lt_irrefl, if_false]
    rw [hfind]
  · intro hmem hpub hfind
    unfold check_policy
    rw [if_neg hmem]
    have hnil : dependencies.filter (fun d => !(is_public d)) = [] := by
      apply List.filter_eq_nil.mpr
      intro d hd
      simp [hpub d hd]
    simp only [hnil, List.length_nil, lt_irrefl, if_false]
    rw [hfind]
    exact ⟨_, rfl⟩

/-- Witness for C1 at concrete engines: a no-side-effect tool is allowed, a
private dependency forces denial, a matching glob rule decides, and an empty
rule list denies by default. -/
theorem check_policy_contract_witness :
    check_policy ⟨[], ["query_ai_assistant"]⟩ "query_ai_assistant" [] []
      = .Allowed
    ∧ (∃ r, check_policy ⟨[], []⟩ "send_money" []
        [CaMeLValue.vNone ⟨∅, Readers.RSet ∅⟩ []] = .Denied r)
    ∧ check_policy
        ⟨[("send_*", fun _ _ => SecurityPolicyResult.Allowed)], []⟩
        "send_money" [] [] = SecurityPolicyResult.Allowed
    ∧ (∃ r, check_policy ⟨[], []⟩ "unknown_tool" [] [] = .Denied r) := by
  refine ⟨?_, ?_, ?_, ?_⟩
  · exact (check_policy_contract _ _ _ _).1 (by simp)
  · refine (check_policy_contract _ _ _ _).2.1 (by simp) ?_
    refine ⟨_, List.mem_singleton.mpr rfl, ?_⟩
    rw [is_public]
    rw [all_readers]
    simp [get_dependencies, CaMeLValue.metaOf]
  · exact (check_policy_contract _ _ _ _).2.2.1
      "send_*" (fun _ _ => SecurityPolicyResult.Allowed)
      (by simp) (by simp) (by rfl)
  · exact (check_policy_contract _ _ _ _).2.2.2 (by simp) (by simp) rfl

/-! ## Claim C5 -/

theorem depsOf_new_with_dependencies (v : CaMeLValue) (ds : List CaMeLValue) :
    (new_with_dependencies v ds).depsOf = v.depsOf ++ ds := by
  cases v <;> rfl

theorem dcList_append (xs ys : List CaMeLValue) :
    dcList (xs ++ ys) = dcList xs ++ dcList ys := by
  induction xs with
  | nil => rw [dcList]; simp
  | cons x xs ih =>
    rw [List.cons_append, dcList, dcList, ih]
    simp

theorem dep_closure_new_with_dependencies (v : CaMeLValue)
    (ds : List CaMeLValue) :
    dep_closure (new_with_dependencies v ds)
      = dep_closure v ++ dcList ds := by
  rw [dep_closure, dep_closure, depsOf_new_with_dependencies, dcList_append]

/-- C5: dependency monotonicity.  Derivation never drops provenance:
`new_with_dependencies` appends to the `_dependencies` tuple (so even the
direct dependency list of the result extends the input's), and an operator
result such as `CaMeLInt.add` lists both operands in its dependencies, so
the transitive provenance chain (`dep_closure`) of the result contains the
whole chain of each operand. -/
theorem dependency_monotonicity :
    (∀ v ds, (new_with_dependencies v ds).depsOf = v.depsOf ++ ds
      ∧ dep_closure (new_with_dependencies v ds)
          = dep_closure v ++ dcList ds)
    ∧ (∀ a b v', camelInt_add a b = some v' →
      (∀ d ∈ dep_closure a, d ∈ dep_closure v')
        ∧ ∀ d ∈ dep_closure b, d ∈ dep_closure v') := by
  constructor
  · intro v ds
    exact ⟨depsOf_new_with_dependencies v ds,
      dep_closure_new_with_dependencies v ds⟩
  · intro a b v' h
    unfold camelInt_add at h
    split at h
    · rename_i n ma da m mb db
      rw [Option.some.injEq] at h
      subst h
      constructor
      · intro d hd
        rw [dep_closure, CaMeLValue.depsOf, dcList]
        exact List.mem_cons_of_mem _ (List.mem_append_left _ hd)
      · intro d hd
        rw [dep_closure, CaMeLValue.depsOf, dcList, dcList]
        refine List.mem_cons_of_mem _ (List.mem_append_right _ ?_)
        exact List.mem_cons_of_mem _ (List.mem_append_left _ hd)
    · cases h

/-- Witness for C5: the monotonicity statement applied at concrete values.
`new_with_dependencies` on an int with one dependency, and `1 + 2`. -/
theorem dependency_monotonicity_witness :
    ((new_with_dependencies
        (CaMeLValue.vInt 1 Capabilities.camel
          [CaMeLValue.vNone Capabilities.camel []])
        [CaMeLValue.vInt 7 Capabilities.camel []]).depsOf
      = [CaMeLValue.vNone Capabilities.camel [],
         CaMeLValue.vInt 7 Capabilities.camel []])
    ∧ ∀ d ∈ dep_closure (CaMeLValue.vInt 1 Capabilities.camel
        [CaMeLValue.vNone Capabilities.camel []]),
      d ∈ dep_closure
        (CaMeLValue.vInt 3 Capabilities.camel
          [CaMeLValue.vInt 1 Capabilities.camel
            [CaMeLValue.vNone Capabilities.camel []],
           CaMeLValue.vInt 2 Capabilities.camel []]) := by
  constructor
  · have h := (dependency_monotonicity.1
      (CaMeLValue.vInt 1 Capabilities.camel
        [CaMeLValue.vNone Capabilities.camel []])
      [CaMeLValue.vInt 7 Capabilities.camel []]).1
    rw [h]
    rfl
  · exact (dependency_monotonicity.2
      (CaMeLValue.vInt 1 Capabilities.camel
        [CaMeLValue.vNone Capabilities.camel []])
      (CaMeLValue.vInt 2 Capabilities.camel []) _ rfl).1

/-! ## Claim C6 -/

/-- Counterexample to C6: `CaMeLInt.unary` builds its result with
`self._metadata`, not `Capabilities.camel()` — negating an int whose
metadata is `default()` yields a result whose metadata is `default()`. -/
theorem op_metadata_counterexample :
    ∃ v', camelInt_unary UnaryOp.USub
        (CaMeLValue.vInt 1 Capabilities.default []) = some v'
      ∧ v'.metaOf ≠ Capabilities.camel := by
  refine ⟨_, rfl, ?_⟩
  rw [CaMeLValue.metaOf]
  decide

/-- C6 (amended): every embedded *binary* operator and `CaMeLFloat.unary`
label their result `Capabilities.camel()` regardless of the operands'
metadata; `CaMeLInt.unary` instead keeps the operand's own metadata (and
prepends the operand to its dependency list). -/
theorem op_metadata_amended :
    (∀ a b v', camelInt_add a b = some v' → v'.metaOf = Capabilities.camel)
    ∧ (∀ a b v', camelInt_sub a b = some v' → v'.metaOf = Capabilities.camel)
    ∧ (∀ a b v', camelInt_mult a b = some v' → v'.metaOf = Capabilities.camel)
    ∧ (∀ a b v', camelFloat_add a b = some v' →
        v'.metaOf = Capabilities.camel)
    ∧ (∀ op a v', camelFloat_unary op a = some v' →
        v'.metaOf = Capabilities.camel)
    ∧ (∀ a b v', camelStr_add a b = some v' → v'.metaOf = Capabilities.camel)
    ∧ (∀ a b v', camelList_add a b = some v' →
        v'.metaOf = Capabilities.camel)
    ∧ (∀ op a v', camelInt_unary op a = some v' →
        v'.metaOf = a.metaOf) := by
  refine ⟨?_, ?_, ?_, ?_, ?_, ?_, ?_, ?_⟩
  · intro a b v' h
    unfold camelInt_add at h
    split at h
    · rw [Option.some.injEq] at h; subst h; rfl
    · cases h
  · intro a b v' h
    unfold camelInt_sub at h
    split at h
    · rw [Option.some.injEq] at h; subst h; rfl
    · cases h
  · intro a b v' h
    unfold camelInt_mult at h
    split at h
    · rw [Option.some.injEq] at h; subst h; rfl
    · cases h
  · intro a b v' h
    unfold camelFloat_add at h
    split at h
    · rw [Option.some.injEq] at h; subst h; rfl
    · cases h
  · intro op a v' h
    unfold camelFloat_unary at h
    split at h
    · rename_i q m d
      cases op with
      | USub => rw [Option.some.injEq] at h; subst h; rfl
      | UAdd => rw [Option.some.injEq] at h; subst h; rfl
      | Invert => cases h
    · cases h
  · intro a b v' h
    unfold camelStr_add at h
    split at h
    · rw [Option.some.injEq] at h; subst h; rfl
    · cases h
  · intro a b v' h
    unfold camelList_add at h
    split at h
    · rw [Option.some.injEq] at h; subst h; rfl
    · cases h
  · intro op a v' h
    unfold camelInt_unary at h
    split at h
    · rw [Option.some.injEq] at h; subst h; rfl
    · cases h

/-- Witness for C6 (amended) at concrete operands: `1 + 2` is labelled
`camel()` even though the operands are labelled `default()`, while `-1`
keeps the operand's `default()` label. -/
theorem op_metadata_amended_witness :
    (CaMeLValue.vInt 3 Capabilities.camel
      [CaMeLValue.vInt 1 Capabilities.default [],
       CaMeLValue.vInt 2 Capabilities.default []]).metaOf
      = Capabilities.camel
    ∧ (CaMeLValue.vInt (-1) Capabilities.default
        [CaMeLValue.vInt 1 Capabilities.default []]).metaOf
      = (CaMeLValue.vInt 1 Capabilities.default []).metaOf := by
  constructor
  · exact op_metadata_amended.1
      (CaMeLValue.vInt 1 Capabilities.default [])
      (CaMeLValue.vInt 2 Capabilities.default []) _ rfl
  · exact op_metadata_amended.2.2.2.2.2.2.2
      UnaryOp.USub (CaMeLValue.vInt 1 Capabilities.default []) _ rfl

/-! ## Claim C7 -/

theorem value_eq_int_int (n1 : Int) (m1 : Capabilities) (d1 : List CaMeLValue)
    (n2 : Int) (m2 : Capabilities) (d2 : List CaMeLValue) :
    value_eq (CaMeLValue.vInt n1 m1 d1) (CaMeLValue.vInt n2 m2 d2)
      = (n1 == n2) := by
  rw [value_eq]
  · simp [rawOf, pyEq]
  all_goals intros
  all_goals rename_i h
  all_goals exact CaMeLValue.noConfusion h

/-- Counterexample to C7: `1 ∈ [5]` (wrapped values) is `False`, and its
dependency list is `(*c.get_dependencies(), x)` — which contains the
*dependencies* of the elements of `c`, not the elements themselves: here the
element `5` (dependency-free) is absent. -/
theorem contains_counterexample :
    iterable_contains
        (CaMeLValue.vList [CaMeLValue.vInt 5 Capabilities.camel []]
          Capabilities.camel [])
        (CaMeLValue.vInt 3 Capabilities.camel [])
      = some (CaMeLValue.vBool false Capabilities.camel
          [CaMeLValue.vInt 3 Capabilities.camel []])
    ∧ (CaMeLValue.vInt 5 Capabilities.camel [])
        ∉ [CaMeLValue.vInt 3 Capabilities.camel []] := by
  constructor
  · rw [iterable_contains]
    have hne : value_eq (CaMeLValue.vInt 5 Capabilities.camel [])
        (CaMeLValue.vInt 3 Capabilities.camel []) = false := by
      rw [value_eq_int_int]
      decide
    simp [List.find?, hne, get_dependencies, gdList]
  · simp

/-- C7 (amended): containment on a list/tuple/set returns `True` with
dependencies `(c, x, first_matching_element)` when some element compares
equal to `x`, and otherwise `False` with dependencies
`(*c.get_dependencies(), x)` — the flattened dependencies of `c` (which
include each element's dependencies but not the elements themselves)
followed by `x`.  On strings the test is `x.raw in c.raw` (substring);
`True` carries `(c, *x.get_dependencies())` — neither `x` itself nor the
matched character — and `False` carries `(*c.get_dependencies(), x)`. -/
theorem contains_amended :
    (∀ es m d x c,
      (c = CaMeLValue.vList es m d ∨ c = CaMeLValue.vTuple es m d
        ∨ c = CaMeLValue.vSet es m d) →
      ((∃ el ∈ es, value_eq el x = true) →
        ∃ el, el ∈ es ∧ value_eq el x = true ∧
          iterable_contains c x
            = some (CaMeLValue.vBool true Capabilities.camel [c, x, el]))
      ∧ ((∀ el ∈ es, value_eq el x = false) →
        iterable_contains c x
          = some (CaMeLValue.vBool false Capabilities.camel
              (get_dependencies c ++ [x]))))
    ∧ (∀ cs m d x,
      ((∃ xs mx dx, x = CaMeLValue.vStr xs mx dx)
        ∨ (∃ ch mx dx, x = CaMeLValue.vChar ch mx dx)) →
      (listInfixB (rawStrOf x).toList
          (rawStrOf (CaMeLValue.vStr cs m d)).toList = true →
        camelStr_contains (CaMeLValue.vStr cs m d) x
          = some (CaMeLValue.vBool true Capabilities.camel
              (CaMeLValue.vStr cs m d :: get_dependencies x)))
      ∧ (listInfixB (rawStrOf x).toList
          (rawStrOf (CaMeLValue.vStr cs m d)).toList = false →
        camelStr_contains (CaMeLValue.vStr cs m d) x
          = some (CaMeLValue.vBool false Capabilities.camel
              (get_dependencies (CaMeLValue.vStr cs m d) ++ [x])))) := by
  constructor
  · intro es m d x c hc
    constructor
    · intro hex
      have hsome : (es.find? (fun el => value_eq el x)).isSome := by
        rw [List.find?_isSome]
        obtain ⟨el, hmem, hel⟩ := hex
        exact ⟨el, hmem, by simpa using hel⟩
      obtain ⟨el, hfind⟩ := Option.isSome_iff_exists.mp hsome
      refine ⟨el, List.mem_of_find?_eq_some hfind, ?_, ?_⟩
      · simpa using List.find?_some hfind
      · rcases hc with rfl | rfl | rfl <;>
          · rw [iterable_contains, hfind]
    · intro hall
      have hnone : es.find? (fun el => value_eq el x) = none := by
        rw [List.find?_eq_none]
        intro el hmem
        simp [hall el hmem]
      rcases hc with rfl | rfl | rfl <;>
        · rw [iterable_contains, hnone]
  · intro cs m d x hx
    constructor
    · intro hinf
      rcases hx with ⟨xs, mx, dx, rfl⟩ | ⟨ch, mx, dx, rfl⟩ <;>
        · rw [camelStr_contains]
          simp only [hinf, if_true]
    · intro hinf
      rcases hx with ⟨xs, mx, dx, rfl⟩ | ⟨ch, mx, dx, rfl⟩ <;>
        · rw [camelStr_contains]
          simp only [hinf, Bool.false_eq_true, if_false]

/-- Witness for C7 (amended): `1 in [2]` is `False` with dependencies `(1)`
only, and `'a' in 'ab'` is `True` with dependencies `(c)` only. -/
theorem contains_amended_witness :
    iterable_contains
        (CaMeLValue.vList [CaMeLValue.vInt 2 Capabilities.camel []]
          Capabilities.camel [])
        (CaMeLValue.vInt 1 Capabilities.camel [])
      = some (CaMeLValue.vBool false Capabilities.camel
          (get_dependencies
            (CaMeLValue.vList [CaMeLValue.vInt 2 Capabilities.camel []]
              Capabilities.camel [])
            ++ [CaMeLValue.vInt 1 Capabilities.camel []]))
    ∧ camelStr_contains
        (CaMeLValue.vStr [CaMeLValue.vChar 'a' Capabilities.camel [],
          CaMeLValue.vChar 'b' Capabilities.camel []] Capabilities.camel [])
        (CaMeLValue.vChar 'a' Capabilities.camel [])
      = some (CaMeLValue.vBool true Capabilities.camel
          (CaMeLValue.vStr [CaMeLValue.vChar 'a' Capabilities.camel [],
            CaMeLValue.vChar 'b' Capabilities.camel []] Capabilities.camel []
            :: get_dependencies (CaMeLValue.vChar 'a' Capabilities.camel []))) := by
  constructor
  · refine ((contains_amended.1 [CaMeLValue.vInt 2 Capabilities.camel []]
      Capabilities.camel [] (CaMeLValue.vInt 1 Capabilities.camel []) _
      (Or.inl rfl)).2) ?_
    intro el hmem
    rw [List.mem_singleton.mp hmem]
    rw [value_eq_int_int]
    decide
  · refine ((contains_amended.2 [CaMeLValue.vChar 'a' Capabilities.camel [],
      CaMeLValue.vChar 'b' Capabilities.camel []] Capabilities.camel []
      (CaMeLValue.vChar 'a' Capabilities.camel [])
      (Or.inr ⟨'a', Capabilities.camel, [], rfl⟩)).1) ?_
    decide

/-! ## Claim C8 -/

theorem value_eq_list_list (xs : List CaMeLValue) (m1 : Capabilities)
    (d1 : List CaMeLValue) (ys : List CaMeLValue) (m2 : Capabilities)
    (d2 : List CaMeLValue) :
    value_eq (CaMeLValue.vList xs m1 d1) (CaMeLValue.vList ys m2 d2)
      = zipEqAll xs ys := by
  rw [value_eq]

theorem value_eq_tuple_tuple (xs : List CaMeLValue) (m1 : Capabilities)
    (d1 : List CaMeLValue) (ys : List CaMeLValue) (m2 : Capabilities)
    (d2 : List CaMeLValue) :
    value_eq (CaMeLValue.vTuple xs m1 d1) (CaMeLValue.vTuple ys m2 d2)
      = zipEqAll xs ys := by
  rw [value_eq]

theorem value_eq_set_set (xs : List CaMeLValue) (m1 : Capabilities)
    (d1 : List CaMeLValue) (ys : List CaMeLValue) (m2 : Capabilities)
    (d2 : List CaMeLValue) :
    value_eq (CaMeLValue.vSet xs m1 d1) (CaMeLValue.vSet ys m2 d2)
      = zipEqAll xs ys := by
  rw [value_eq]

theorem value_eq_dict_dict (xs : List (CaMeLValue × CaMeLValue))
    (m1 : Capabilities) (d1 : List CaMeLValue)
    (ys : List (CaMeLValue × CaMeLValue)) (m2 : Capabilities)
    (d2 : List CaMeLValue) :
    value_eq (CaMeLValue.vDict xs m1 d1) (CaMeLValue.vDict ys m2 d2)
      = zipPairsEq xs ys := by
  rw [value_eq]

theorem value_eq_list_tuple (xs : List CaMeLValue) (m1 : Capabilities)
    (d1 : List CaMeLValue) (ys : List CaMeLValue) (m2 : Capabilities)
    (d2 : List CaMeLValue) :
    value_eq (CaMeLValue.vList xs m1 d1) (CaMeLValue.vTuple ys m2 d2)
      = false := by
  rw [value_eq]
  all_goals intros
  all_goals rename_i h
  all_goals exact CaMeLValue.noConfusion h

theorem zipEqAll_nil_left (l : List CaMeLValue) : zipEqAll [] l = true := by
  rw [zipEqAll]
  intro x xs y ys h1 h2
  exact List.noConfusion h1

mutual

theorem value_eq_refl (v : CaMeLValue) : value_eq v v = true := by
  cases v with
  | vStr cs m d => rw [value_eq]; exact zipEqAll_refl cs
  | vTuple es m d => rw [value_eq]; exact zipEqAll_refl es
  | vList es m d => rw [value_eq]; exact zipEqAll_refl es
  | vSet es m d => rw [value_eq]; exact zipEqAll_refl es
  | vDict ps m d => rw [value_eq]; exact zipPairsEq_refl ps
  | vNone m d => simp [value_eq.eq_def, rawOf, pyEq]
  | vBool b m d => simp [value_eq.eq_def, rawOf, pyEq]
  | vInt n m d => simp [value_eq.eq_def, rawOf, pyEq]
  | vFloat q m d => simp [value_eq.eq_def, rawOf, pyEq]
  | vChar c m d => simp [value_eq.eq_def, rawOf, pyEq]
  | vCallable n m d => simp [value_eq.eq_def, rawOf, pyEq]
termination_by sizeOf v

theorem zipEqAll_refl (l : List CaMeLValue) : zipEqAll l l = true := by
  cases l with
  | nil => exact zipEqAll_nil_left []
  | cons x xs =>
    rw [zipEqAll]
    rw [value_eq_refl x, zipEqAll_refl xs]
    rfl
termination_by sizeOf l

theorem zipPairsEq_refl (l : List (CaMeLValue × CaMeLValue)) :
    zipPairsEq l l = true := by
  cases l with
  | nil =>
    rw [zipPairsEq]
    intro k v xs k2 v2 ys h1 h2
    exact List.noConfusion h1
  | cons p ps =>
    obtain ⟨k, v⟩ := p
    rw [zipPairsEq]
    rw [value_eq_refl k, value_eq_refl v, zipPairsEq_refl ps]
    rfl
termination_by sizeOf l

end

/-- Counterexample to C8: comparing `[1]` with `[1, 2]` walks the payloads
with `zip`, which stops at the shorter list — the comparison returns `True`
although the raw payloads are not structurally equal. -/
theorem collection_eq_counterexample :
    camel_eq_method
        (CaMeLValue.vList [CaMeLValue.vInt 1 Capabilities.camel []]
          Capabilities.camel [])
        (CaMeLValue.vList [CaMeLValue.vInt 1 Capabilities.camel [],
          CaMeLValue.vInt 2 Capabilities.camel []] Capabilities.camel [])
      = CaMeLValue.vBool true Capabilities.camel
          [CaMeLValue.vList [CaMeLValue.vInt 1 Capabilities.camel []]
            Capabilities.camel [],
           CaMeLValue.vList [CaMeLValue.vInt 1 Capabilities.camel [],
            CaMeLValue.vInt 2 Capabilities.camel []] Capabilities.camel []]
    ∧ pyEq
        (rawOf (CaMeLValue.vList [CaMeLValue.vInt 1 Capabilities.camel []]
          Capabilities.camel []))
        (rawOf (CaMeLValue.vList [CaMeLValue.vInt 1 Capabilities.camel [],
          CaMeLValue.vInt 2 Capabilities.camel []] Capabilities.camel []))
      = false := by
  constructor
  · rw [camel_eq_method, value_eq_list_list, zipEqAll, value_eq_int_int,
      zipEqAll_nil_left]
    rfl
  · simp [rawOf, rawList, pyEq, pyEqList]

/-- C8 (amended): equality on two collections of the same variant returns a
Bool with metadata `camel()` and dependencies exactly `(lhs, rhs)`, whose
truth walks the two payloads pairwise with `zip` — truncating at the shorter
side, so a collection whose items form a prefix of the other's also compares
`True` (see the counterexample); identical collections always compare
`True`, and a variant mismatch compares `False`. -/
theorem collection_eq_amended :
    (∀ xs m1 d1 ys m2 d2,
      camel_eq_method (CaMeLValue.vList xs m1 d1) (CaMeLValue.vList ys m2 d2)
        = CaMeLValue.vBool (zipEqAll xs ys) Capabilities.camel
            [CaMeLValue.vList xs m1 d1, CaMeLValue.vList ys m2 d2])
    ∧ (∀ xs m1 d1 ys m2 d2,
      camel_eq_method (CaMeLValue.vTuple xs m1 d1)
          (CaMeLValue.vTuple ys m2 d2)
        = CaMeLValue.vBool (zipEqAll xs ys) Capabilities.camel
            [CaMeLValue.vTuple xs m1 d1, CaMeLValue.vTuple ys m2 d2])
    ∧ (∀ xs m1 d1 ys m2 d2,
      camel_eq_method (CaMeLValue.vSet xs m1 d1) (CaMeLValue.vSet ys m2 d2)
        = CaMeLValue.vBool (zipEqAll xs ys) Capabilities.camel
            [CaMeLValue.vSet xs m1 d1, CaMeLValue.vSet ys m2 d2])
    ∧ (∀ xs m1 d1 ys m2 d2,
      camel_eq_method (CaMeLValue.vDict xs m1 d1) (CaMeLValue.vDict ys m2 d2)
        = CaMeLValue.vBool (zipPairsEq xs ys) Capabilities.camel
            [CaMeLValue.vDict xs m1 d1, CaMeLValue.vDict ys m2 d2])
    ∧ (∀ v, value_eq v v = true)
    ∧ (∀ xs m1 d1 ys m2 d2,
      camel_eq_method (CaMeLValue.vList xs m1 d1)
          (CaMeLValue.vTuple ys m2 d2)
        = CaMeLValue.vBool false Capabilities.camel
            [CaMeLValue.vList xs m1 d1, CaMeLValue.vTuple ys m2 d2]) := by
  refine ⟨?_, ?_, ?_, ?_, value_eq_refl, ?_⟩
  · intro xs m1 d1 ys m2 d2
    rw [camel_eq_method, value_eq_list_list]
  · intro xs m1 d1 ys m2 d2
    rw [camel_eq_method, value_eq_tuple_tuple]
  · intro xs m1 d1 ys m2 d2
    rw [camel_eq_method, value_eq_set_set]
  · intro xs m1 d1 ys m2 d2
    rw [camel_eq_method, value_eq_dict_dict]
  · intro xs m1 d1 ys m2 d2
    rw [camel_eq_method, value_eq_list_tuple]

/-! ## Claim C2 -/

/-- C2: in `CaMeLCallable.call` the raw arguments are captured before the
underlying callable runs; the call raises `FunctionCallWithSideEffectError`
exactly when the raw argument views observed after the call differ (Python
`==`) from the captured ones, and on success the wrapped output together
with `args_by_keyword` is returned — so after every successful call the raw
arguments before and after compare equal. -/
theorem call_side_effect_guard (selfv : CaMeLValue) (name : String)
    (f : List PyVal → List (String × PyVal) → PyCallOutcome)
    (es : List CaMeLValue) (am : Capabilities) (ad : List CaMeLValue)
    (ps : List (CaMeLValue × CaMeLValue)) (km : Capabilities)
    (kd : List CaMeLValue) :
    ((∃ msg, camel_callable_call selfv name f (.vTuple es am ad)
        (.vDict ps km kd) = some (Except.error msg))
      ↔ (pyEqList (rawList es)
            (f (rawList es) (rawKwargs ps)).args_after = false
          ∨ kwargsPyEq (rawKwargs ps)
            (f (rawList es) (rawKwargs ps)).kwargs_after = false))
    ∧ (∀ out, camel_callable_call selfv name f (.vTuple es am ad)
        (.vDict ps km kd) = some (Except.ok out) →
      pyEqList (rawList es)
          (f (rawList es) (rawKwargs ps)).args_after = true
        ∧ kwargsPyEq (rawKwargs ps)
          (f (rawList es) (rawKwargs ps)).kwargs_after = true
        ∧ out = (wrap_output selfv name
              (f (rawList es) (rawKwargs ps)).output
              (.vTuple es am ad) (.vDict ps km kd),
            make_args_by_keyword es ps)) := by
  cases hA : pyEqList (rawList es)
      (f (rawList es) (rawKwargs ps)).args_after <;>
    cases hK : kwargsPyEq (rawKwargs ps)
        (f (rawList es) (rawKwargs ps)).kwargs_after <;>
      constructor <;>
        simp only [camel_callable_call, hA, hK, Bool.not_false, Bool.not_true,
          Bool.or_false, Bool.false_or, Bool.or_true, Bool.true_or,
          if_true, if_false, Option.some.injEq]
  · simp
  · intro out h
    simp at h
  · simp
  · intro out h
    simp at h
  · simp
  · intro out h
    simp at h
  · simp
  · intro out h
    rw [if_neg Bool.false_ne_true] at h
    cases h
    exact ⟨trivial, trivial, rfl⟩

/-- Witness for C2: a mutating callable (rewriting its argument view) is
rejected with `FunctionCallWithSideEffectError`, and a pure callable
succeeds with the raw argument views comparing equal before and after. -/
theorem call_side_effect_guard_witness :
    (∃ msg, camel_callable_call (CaMeLValue.vCallable "f" Capabilities.camel [])
        "f" (fun _ k => ⟨[PyVal.int 99], k, PyVal.none⟩)
        (CaMeLValue.vTuple [CaMeLValue.vInt 1 Capabilities.camel []]
          Capabilities.camel [])
        (CaMeLValue.vDict [] Capabilities.camel [])
      = some (Except.error msg))
    ∧ pyEqList (rawList [CaMeLValue.vInt 1 Capabilities.camel []])
        (((fun a k => PyCallOutcome.mk a k PyVal.none)
          (rawList [CaMeLValue.vInt 1 Capabilities.camel []])
          (rawKwargs [])).args_after) = true := by
  constructor
  · refine (call_side_effect_guard (CaMeLValue.vCallable "f" Capabilities.camel [])
      "f" (fun _ k => ⟨[PyVal.int 99], k, PyVal.none⟩)
      [CaMeLValue.vInt 1 Capabilities.camel []] Capabilities.camel []
      [] Capabilities.camel []).1.mpr ?_
    refine Or.inl ?_
    simp [rawList, rawOf, pyEqList, pyEq]
  · have hok : camel_callable_call (CaMeLValue.vCallable "f" Capabilities.camel [])
        "f" (fun a k => PyCallOutcome.mk a k PyVal.none)
        (CaMeLValue.vTuple [CaMeLValue.vInt 1 Capabilities.camel []]
          Capabilities.camel [])
        (CaMeLValue.vDict [] Capabilities.camel [])
        = some (Except.ok
            (wrap_output (CaMeLValue.vCallable "f" Capabilities.camel []) "f"
              PyVal.none
              (CaMeLValue.vTuple [CaMeLValue.vInt 1 Capabilities.camel []]
                Capabilities.camel [])
              (CaMeLValue.vDict [] Capabilities.camel []),
             make_args_by_keyword [CaMeLValue.vInt 1 Capabilities.camel []] [])) := by
      simp [camel_callable_call, rawList, rawOf, rawKwargs, pyEqList, pyEq,
        kwargsPyEq, pyDictIncl]
    exact ((call_side_effect_guard (CaMeLValue.vCallable "f" Capabilities.camel [])
      "f" (fun a k => PyCallOutcome.mk a k PyVal.none)
      [CaMeLValue.vInt 1 Capabilities.camel []] Capabilities.camel []
      [] Capabilities.camel []).2 _ hok).1

/-! ## Claim C9 -/

/-- The cyclic heap built by interior mutation (`l = [a, m]; m = [b, l];`
via `set_index`): node 0 is the list `L = [a, M]`, node 1 the int `a`,
node 2 the list `M = [b, L]`, node 3 the int `b`; all `_dependencies`
tuples are empty. -/
def cycStore : List GNode :=
  [⟨[], GKind.iterable [1, 2]⟩, ⟨[], GKind.atomic⟩,
   ⟨[], GKind.iterable [3, 0]⟩, ⟨[], GKind.atomic⟩]

theorem gdF_zero (st : List GNode) (vid : Nat) (vis : List Nat) :
    gdF st 0 vid vis = none := by
  rw [gdF]

theorem cycStore_get0 :
    cycStore[0]? = some ⟨[], GKind.iterable [1, 2]⟩ := rfl

theorem cycStore_get1 : cycStore[1]? = some ⟨[], GKind.atomic⟩ := rfl

theorem cycStore_get2 :
    cycStore[2]? = some ⟨[], GKind.iterable [3, 0]⟩ := rfl

theorem cycStore_get3 : cycStore[3]? = some ⟨[], GKind.atomic⟩ := rfl

theorem gdF_atomic1 (n : Nat) (vis : List Nat) :
    gdF cycStore (n + 1) 1 vis = some ([], [1]) := by
  rw [gdF]
  rfl

theorem gdF_atomic3 (n : Nat) (vis : List Nat) :
    gdF cycStore (n + 1) 3 vis = some ([], [3]) := by
  rw [gdF]
  rfl

theorem gdF_L_step (n : Nat) (h : gdF cycStore n 2 [1, 0] = none) :
    gdF cycStore (n + 1) 0 [3, 2] = none := by
  cases n with
  | zero =>
    rw [gdF]
    simp [cycStore_get0, insertId, gdF_zero]
  | succ m =>
    rw [gdF]
    simp [cycStore_get0, insertId, gdF_atomic1, h]

theorem gdF_M_none_pair (n : Nat) :
    gdF cycStore n 2 [1, 0] = none
      ∧ gdF cycStore (n + 1) 2 [1, 0] = none := by
  induction n with
  | zero =>
    constructor
    · rw [gdF]
    · rw [gdF]
      simp [cycStore_get2, insertId, gdF_zero]
  | succ m ih =>
    refine ⟨ih.2, ?_⟩
    rw [gdF]
    have hL := gdF_L_step m ih.1
    simp [cycStore_get2, insertId, gdF_atomic3, hL]

/-- C9: the claim asserts that the dependency traversal terminates on cyclic
heaps thanks to the visited-identity sets.  It does not: the base
`CaMeLValue.get_dependencies` returns `(self._dependencies,
frozenset({id(self)}))`, *discarding* the incoming visited set, so whenever
a container traversal passes through an atomic element the accumulated
visited ids are lost.  On the two mutually-referencing lists of `cycStore`
the traversal started at `L` re-enters `L` with a visited set `{b, M}` that
no longer contains `L` and recurses forever: no amount of fuel lets the
fuelled translation `gdF` finish. -/
theorem get_dependencies_cycle_divergence :
    ∀ fuel, gdF cycStore fuel 0 [] = none := by
  intro fuel
  cases fuel with
  | zero => rw [gdF]
  | succ f =>
    cases f with
    | zero =>
      rw [gdF]
      simp [cycStore_get0, insertId, gdF_zero]
    | succ g =>
      rw [gdF]
      have hM := (gdF_M_none_pair g).2
      simp [cycStore_get0, insertId, gdF_atomic1, hM]
